import Mathlib

/-!
Shallow embedding of the Content-Based File Organizer pipeline
(src/src/llm_service.py, src/src/file_organizer.py, src/src/text_extractor.py,
src/src/file_processor.py).

Python strings are modelled as `List Char` (Python `str` is a sequence of
code points, so character counts and slicing agree with `List Char`).
The character-class predicates model the ASCII fragment of Python's regex
classes exactly; the source only ever manipulates ASCII class sets
(`[a-zA-Z]`, `[a-zA-Z0-9_]`, the invalid-filename set), and all concrete
inputs used below are ASCII.
-/

namespace FileOrg

/-- Python `str.strip()` whitespace set (ASCII fragment). -/
def pyIsSpace (c : Char) : Bool :=
  c == ' ' || c == '\t' || c == '\n' || c == '\r' || c == '\x0b' || c == '\x0c'

/-- ASCII `[a-zA-Z]`, the regex class used by `_simulate_filename`. -/
def isAsciiAlpha (c : Char) : Bool :=
  (65 ≤ c.toNat && c.toNat ≤ 90) || (97 ≤ c.toNat && c.toNat ≤ 122)

/-- ASCII `[0-9]`. -/
def isAsciiDigit (c : Char) : Bool :=
  48 ≤ c.toNat && c.toNat ≤ 57

/-- ASCII word characters `[a-zA-Z0-9_]` (regex `\w`, ASCII fragment). -/
def wordChar (c : Char) : Bool :=
  isAsciiAlpha c || isAsciiDigit c || c == '_'

/-- The nine filesystem-forbidden characters removed by `_sanitize_filename`. -/
def forbiddenChar (c : Char) : Bool :=
  c == '/' || c == '\\' || c == ':' || c == '*' || c == '?' ||
  c == '"' || c == '<' || c == '>' || c == '|'

/-- Control characters `0x00-0x1f` and `0x7f-0x9f`. -/
def controlChar (c : Char) : Bool :=
  c.toNat ≤ 0x1f || (0x7f ≤ c.toNat && c.toNat ≤ 0x9f)

/-- The full character class removed by `_sanitize_filename`
(`[/\:*?"<>|\x00-\x1f\x7f-\x9f]` plus backslash). -/
def invalidChar (c : Char) : Bool :=
  forbiddenChar c || controlChar c

/-- The set stripped from both ends by `sanitized.strip('. ')`. -/
def stripSet (c : Char) : Bool :=
  c == '.' || c == ' '

/-- Python `str.lower()` on one character (ASCII fragment). -/
def lowerChar (c : Char) : Char :=
  if 65 ≤ c.toNat ∧ c.toNat ≤ 90 then Char.ofNat (c.toNat + 32) else c

/-- Python `str.upper()` on one character (ASCII fragment). -/
def upperChar (c : Char) : Char :=
  if 97 ≤ c.toNat ∧ c.toNat ≤ 122 then Char.ofNat (c.toNat - 32) else c

theorem toNat_ofNat_of_valid (n : Nat) (h : n < 0xd800) : (Char.ofNat n).toNat = n := by
  rw [Char.ofNat, dif_pos (Or.inl h)]
  rfl

/-- Python `s.strip(chars)` / one-sided strips composed: drop from the front
and the back every character satisfying `p`. -/
def stripEnds (p : Char → Bool) (l : List Char) : List Char :=
  ((l.dropWhile p).reverse.dropWhile p).reverse

/-- Worker for `splitRuns`: `cur` is the current run, reversed. -/
def splitRunsAux (p : Char → Bool) : List Char → List Char → List (List Char)
  | cur, [] => if cur.isEmpty then [] else [cur.reverse]
  | cur, c :: cs =>
    if p c then splitRunsAux p (c :: cur) cs
    else if cur.isEmpty then splitRunsAux p [] cs
    else cur.reverse :: splitRunsAux p [] cs

/-- Maximal runs of characters satisfying `p` (used to model both regex
word runs and Python `str.split()`). -/
def splitRuns (p : Char → Bool) (l : List Char) : List (List Char) :=
  splitRunsAux p [] l

/-- Python `str.split()` with no argument: maximal non-whitespace runs. -/
def pySplit (l : List Char) : List (List Char) :=
  splitRuns (fun c => !pyIsSpace c) l

/-- Python `str.capitalize()` (ASCII fragment): first character uppercased,
the rest lowercased. -/
def capitalizePy (w : List Char) : List Char :=
  match w with
  | [] => []
  | c :: cs => upperChar c :: cs.map lowerChar

/-- Python `"_".join(parts)`. -/
def joinUnderscore : List (List Char) → List Char
  | [] => []
  | [w] => w
  | w :: ws => w ++ '_' :: joinUnderscore ws

/-- Decimal digit character. -/
def decChar (d : Nat) : Char := Char.ofNat (48 + d)

/-- Decimal rendering worker; `fuel` bounds the digit count. -/
def toDecAux : Nat → Nat → List Char
  | 0, _ => []
  | fuel + 1, n =>
    if n < 10 then [decChar n]
    else toDecAux fuel (n / 10) ++ [decChar (n % 10)]

/-- Python `str(n)` / f-string rendering of a nonnegative integer. -/
def toDecimal (n : Nat) : List Char := toDecAux (n + 1) n

/-- Numeric value of a digit character (left inverse to `decChar`). -/
def charDigit (c : Char) : Nat := c.toNat - 48

/-- Evaluate a decimal digit string. -/
def fromDec (l : List Char) : Nat :=
  l.foldl (fun a c => 10 * a + charDigit c) 0

/-- Index of the last `'.'` in a name, as used by `pathlib`'s
`PurePath.stem` / `PurePath.suffix` (`name.rfind('.')`). -/
def rfindDot : List Char → Option Nat
  | [] => none
  | c :: cs =>
    match rfindDot cs with
    | some i => some (i + 1)
    | none => if c == '.' then some 0 else none

/-- `pathlib.PurePath.suffix` of a final path component: `name[i:]` for the
last dot index `i` when `0 < i < len(name) - 1`, else empty. -/
def pySuffix (name : List Char) : List Char :=
  match rfindDot name with
  | some i => if 0 < i ∧ i < name.length - 1 then name.drop i else []
  | none => []

/-- `pathlib.PurePath.stem`: `name[:i]` under the same condition, else `name`. -/
def pyStem (name : List Char) : List Char :=
  match rfindDot name with
  | some i => if 0 < i ∧ i < name.length - 1 then name.take i else name
  | none => name

/-- `FileOrganizer._sanitize_filename` (src/src/file_organizer.py lines 86-108):
remove the invalid class, strip boundary spaces and dots, default to
`"unnamed"` when empty. -/
def sanitize_filename (filename : List Char) : List Char :=
  let sanitized := filename.filter (fun c => !invalidChar c)
  let sanitized := stripEnds stripSet sanitized
  if sanitized = [] then "unnamed".toList else sanitized

/-! ## LLM service (src/src/llm_service.py) -/

/-- A local timestamp as delivered by `datetime.now()`. -/
structure DateTime where
  year : Nat
  month : Nat
  day : Nat
  hour : Nat
  minute : Nat
  second : Nat

/-- Zero-padded decimal field of `strftime`. -/
def padDec (w n : Nat) : List Char :=
  List.replicate (w - (toDecimal n).length) '0' ++ toDecimal n

/-- `datetime.now().strftime("%Y%m%d_%H%M%S")`. -/
def strftimeTS (t : DateTime) : List Char :=
  padDec 4 t.year ++ padDec 2 t.month ++ padDec 2 t.day ++
    '_' :: (padDec 2 t.hour ++ padDec 2 t.minute ++ padDec 2 t.second)

/-- `LLMService._fallback_filename` (llm_service.py lines 238-247):
`"document_" + timestamp`. -/
def fallback_filename (now : DateTime) : List Char :=
  "document_".toList ++ strftimeTS now

/-- The fixed stop-word set of `_simulate_filename` (llm_service.py 123-129). -/
def common_words : List (List Char) :=
  ["the", "and", "for", "that", "this", "with", "from", "have",
   "will", "your", "are", "not", "but", "can", "was", "were",
   "been", "has", "had", "does", "did", "would", "could", "should",
   "about", "into", "through", "during", "before", "after", "above",
   "below", "between", "under", "again", "further", "then", "once"].map String.toList

/-- `re.findall(r'\b[a-zA-Z]{4,}\b', s)`: because `\b` separates word
characters (`[a-zA-Z0-9_]`) from non-word characters, the matches are
exactly the maximal word-character runs that consist solely of alphabetic
characters and have length at least 4.  A run of letters touching a digit
or underscore is rejected by the boundary assertion. -/
def findallAlpha4 (l : List Char) : List (List Char) :=
  (splitRuns wordChar l).filter (fun r => r.all isAsciiAlpha && decide (4 ≤ r.length))

/-- The dedup loop of `_simulate_filename` (llm_service.py 136-143): keep
first-seen order, stop as soon as 5 unique keywords are collected.  `acc`
plays the role of both `unique_keywords` and `seen` (they hold the same
elements throughout the loop). -/
def uniq5 (acc : List (List Char)) : List (List Char) → List (List Char)
  | [] => acc
  | w :: ws =>
    let acc' := if w ∈ acc then acc else acc ++ [w]
    if 5 ≤ acc'.length then acc' else uniq5 acc' ws

/-- `LLMService._simulate_filename` (llm_service.py lines 110-161). -/
def simulate_filename (content_sample : List Char) (now : DateTime) : List Char :=
  let content := stripEnds pyIsSpace content_sample
  let words := findallAlpha4 (content.map lowerChar)
  let keywords := words.filter (fun w => w ∉ common_words)
  let unique_keywords := uniq5 [] keywords
  if unique_keywords ≠ [] then
    joinUnderscore ((unique_keywords.take 3).map capitalizePy)
  else
    let first_words := (pySplit content).take 3
    if first_words ≠ [] then
      let filename := joinUnderscore (first_words.map capitalizePy)
      let filename := filename.filter (fun c => isAsciiAlpha c || isAsciiDigit c || c == '_')
      if filename ≠ [] then filename else fallback_filename now
    else fallback_filename now

/-- `LLMService.generate_filename` (llm_service.py lines 73-108).  The active
mode's generator is abstracted by its outcome `gen`: `.ok name` when it
returns `name`, `.error ()` when it raises; the enclosing `try/except`
converts any raise into the fallback name.  The function itself is total
(it never raises). -/
def generate_filename (mode : String) (gen : Except Unit (List Char))
    (content_sample : List Char) (now : DateTime) : List Char :=
  if content_sample.all pyIsSpace then fallback_filename now
  else if mode = "simulated" ∨ mode = "bedrock" then
    match gen with
    | .ok name => name
    | .error _ => fallback_filename now
  else fallback_filename now

/-- `generate_filename` in simulated mode, with the heuristic generator
(which never raises) plugged in. -/
def generate_filename_simulated (content_sample : List Char) (now : DateTime) : List Char :=
  generate_filename "simulated" (.ok (simulate_filename content_sample now)) content_sample now

/-! ## File organizer (src/src/file_organizer.py)

The organized root is modelled as the list of file names currently existing
in it (`fs`); `path.exists()` is membership in `fs`. -/

/-- The candidate path `parent / f"{stem}_{counter}{suffix}"` probed by
`_handle_conflict` (file_organizer.py line 131). -/
def suffixedName (stem ext : List Char) (n : Nat) : List Char :=
  stem ++ '_' :: (toDecimal n ++ ext)

/-- The `while True` probe loop of `_handle_conflict` (file_organizer.py
lines 129-134), with an explicit fuel.  `organize_file` always supplies
`fs.length + 1` fuel, which is enough: among `fs.length + 1` pairwise
distinct candidate names at least one is not in `fs`, so the loop always
returns before exhausting the fuel (see `findFree_spec` below); the
fuel-exhausted base case is therefore never reached. -/
def findFree (fs : List (List Char)) (stem ext : List Char) : Nat → Nat → List Char
  | counter, 0 => suffixedName stem ext counter
  | counter, fuel + 1 =>
    let new_path := suffixedName stem ext counter
    if new_path ∈ fs then findFree fs stem ext (counter + 1) fuel else new_path

/-- `FileOrganizer._handle_conflict` (file_organizer.py lines 110-134). -/
def handle_conflict (fs : List (List Char)) (target : List Char) : List Char :=
  if target ∈ fs then
    findFree fs (pyStem target) (pySuffix target) 1 (fs.length + 1)
  else target

/-- The name-computation core of `FileOrganizer.organize_file`
(file_organizer.py lines 38-84): sanitize the candidate, append the source
path's extension verbatim, resolve conflicts against the organized root. -/
def organize_target (fs : List (List Char)) (srcName new_name : List Char) : List Char :=
  handle_conflict fs (sanitize_filename new_name ++ pySuffix srcName)

/-- Organizing `n` files in sequence with the same source-name shape and the
same candidate name: each successful move creates the chosen name in the
organized root.  Returns the chosen final names in creation order. -/
def organizeSeq (fs : List (List Char)) (srcName new_name : List Char) : Nat → List (List Char)
  | 0 => []
  | n + 1 =>
    let r := organize_target fs srcName new_name
    r :: organizeSeq (r :: fs) srcName new_name n

/-- The name `organize_file` predicts for the `k`-th file (0-based) of a
same-candidate sequence into a fresh root: the unsuffixed sanitized name
first, then `_1`, `_2`, ... -/
def expectedName (srcName new_name : List Char) (k : Nat) : List Char :=
  let base := sanitize_filename new_name ++ pySuffix srcName
  if k = 0 then base else suffixedName (pyStem base) (pySuffix base) k

/-- Outcome of one `os.rename` attempt inside `_move_with_retry`. -/
inductive MoveOutcome
  | success
  | permError
  | osError
deriving DecidableEq

/-- Terminal state of `_move_with_retry`. -/
inductive MoveResult
  | ok
  | permExhausted
  | osFailure
  | fellThrough
deriving DecidableEq

/-- Observable trace of `_move_with_retry`: terminal state, number of
`os.rename` attempts made, and total seconds slept (`time.sleep(2)` per
retried permission error). -/
structure MoveTrace where
  result : MoveResult
  attempts : Nat
  sleepSeconds : Nat
deriving DecidableEq

/-- The `for attempt in range(retries)` loop of `_move_with_retry`
(file_organizer.py lines 148-177).  `outcome i` is what the `i`-th
`os.rename` call does (0-based); `fuel` is the number of loop iterations
remaining, and `attempt` the current index. -/
def moveGo (outcome : Nat → MoveOutcome) (retries : Nat) : Nat → Nat → MoveTrace
  | 0, _ => ⟨.fellThrough, 0, 0⟩
  | fuel + 1, attempt =>
    match outcome attempt with
    | .success => ⟨.ok, 1, 0⟩
    | .permError =>
      if attempt < retries - 1 then
        let r := moveGo outcome retries fuel (attempt + 1)
        ⟨r.result, r.attempts + 1, r.sleepSeconds + 2⟩
      else ⟨.permExhausted, 1, 0⟩
    | .osError => ⟨.osFailure, 1, 0⟩

/-- `FileOrganizer._move_with_retry` (file_organizer.py lines 136-177);
the default of the `retries` parameter in the source is 3. -/
def move_with_retry (outcome : Nat → MoveOutcome) (retries : Nat) : MoveTrace :=
  moveGo outcome retries retries 0

/-! ## Text extractor (src/src/text_extractor.py) -/

/-- `TextExtractionError` variants (text_extractor.py): file missing,
unsupported extension, or a failing branch reader. -/
inductive TextExtractionError
  | notFound
  | unsupported
  | failed
deriving DecidableEq

/-- `TextExtractor.extract_text` (text_extractor.py lines 34-73).  The two
branch readers (`_extract_from_pdf` / `_extract_from_text`) are abstracted
by `reader`, the normalized source text they return, or the extraction
error they raise.  The result of a successful branch is truncated with
`text[:max_length]`, a character-count prefix. -/
def extract_text (max_length : Nat) (fileExists : Bool) (pathName : List Char)
    (reader : Except TextExtractionError (List Char)) :
    Except TextExtractionError (List Char) :=
  if !fileExists then .error .notFound
  else
    let extension := (pySuffix pathName).map lowerChar
    if extension = ".pdf".toList ∨ extension = ".txt".toList ∨ extension = ".text".toList then
      match reader with
      | .ok text => .ok (text.take max_length)
      | .error e => .error e
    else .error .unsupported

/-! ## File processor (src/src/file_processor.py) -/

/-- Observable behaviour of `FileProcessor.process_file` (file_processor.py
lines 44-110): the content sample reaching the naming stage, the generated
name, and the outcome of the organize stage that is invoked with it. -/
structure ProcessTrace where
  content_sample : List Char
  new_name : List Char
  organized : Except Unit Bool

/-- `FileProcessor.process_file`: on a `TextExtractionError` the pipeline
logs and continues with an empty content sample; the naming stage is the
(total) `generate_filename`; the organize stage is then invoked with the
generated name.  `organize` abstracts `FileOrganizer.organize_file` on the
ambient filesystem state. -/
def process_file (extract : Except TextExtractionError (List Char)) (mode : String)
    (gen : Except Unit (List Char)) (organize : List Char → Except Unit Bool)
    (now : DateTime) : ProcessTrace :=
  let content_sample := match extract with
    | .ok t => t
    | .error _ => []
  let new_name := generate_filename mode gen content_sample now
  { content_sample := content_sample
    new_name := new_name
    organized := organize new_name }

/-- A fixed concrete timestamp used by concrete instances below. -/
def sampleNow : DateTime := ⟨2024, 1, 2, 3, 4, 5⟩

/-! ## Character-class lemmas -/

theorem wordChar_not_forbidden {c : Char} (h : wordChar c = true) : forbiddenChar c = false := by
  by_contra hf
  rw [Bool.not_eq_false] at hf
  simp only [forbiddenChar, Bool.or_eq_true, beq_iff_eq] at hf
  rcases hf with ((((((((rfl | rfl) | rfl) | rfl) | rfl) | rfl) | rfl) | rfl) | rfl) <;>
    revert h <;> decide

theorem wordChar_not_space {c : Char} (h : wordChar c = true) : pyIsSpace c = false := by
  by_contra hf
  rw [Bool.not_eq_false] at hf
  simp only [pyIsSpace, Bool.or_eq_true, beq_iff_eq] at hf
  rcases hf with (((((rfl | rfl) | rfl) | rfl) | rfl) | rfl) <;> revert h <;> decide

theorem wordChar_toNat {c : Char} (h : wordChar c = true) :
    (48 ≤ c.toNat ∧ c.toNat ≤ 57) ∨ (65 ≤ c.toNat ∧ c.toNat ≤ 90) ∨
      (97 ≤ c.toNat ∧ c.toNat ≤ 122) ∨ c.toNat = 95 := by
  simp only [wordChar, isAsciiAlpha, isAsciiDigit, Bool.or_eq_true, Bool.and_eq_true,
    decide_eq_true_eq, beq_iff_eq] at h
  rcases h with ((⟨h1, h2⟩ | ⟨h1, h2⟩) | ⟨h1, h2⟩) | rfl
  · exact Or.inr (Or.inl ⟨h1, h2⟩)
  · exact Or.inr (Or.inr (Or.inl ⟨h1, h2⟩))
  · exact Or.inl ⟨h1, h2⟩
  · exact Or.inr (Or.inr (Or.inr (by decide)))

theorem wordChar_not_invalid {c : Char} (h : wordChar c = true) : invalidChar c = false := by
  have hv := wordChar_toNat h
  have hforb := wordChar_not_forbidden h
  simp only [invalidChar, Bool.or_eq_false_iff]
  refine ⟨hforb, ?_⟩
  simp only [controlChar, Bool.or_eq_false_iff, Bool.and_eq_false_iff,
    decide_eq_false_iff_not, not_le]
  omega

theorem mem_toNat_eq {c : Char} {n : Nat} (h : c.toNat = n) : c = Char.ofNat n := by
  subst h
  exact (Char.ofNat_toNat c).symm

/-! ## lowerChar / upperChar -/

theorem lowerChar_toNat (c : Char) :
    (lowerChar c).toNat = if 65 ≤ c.toNat ∧ c.toNat ≤ 90 then c.toNat + 32 else c.toNat := by
  unfold lowerChar
  split
  · next h => exact toNat_ofNat_of_valid _ (by omega)
  · rfl

theorem upperChar_toNat (c : Char) :
    (upperChar c).toNat = if 97 ≤ c.toNat ∧ c.toNat ≤ 122 then c.toNat - 32 else c.toNat := by
  unfold upperChar
  split
  · next h => exact toNat_ofNat_of_valid _ (by omega)
  · rfl

/-- After `content.lower()`, no remaining character lies in `A`-`Z`. -/
theorem lowerChar_not_upper (c : Char) :
    ¬(65 ≤ (lowerChar c).toNat ∧ (lowerChar c).toNat ≤ 90) := by
  rw [lowerChar_toNat]
  split <;> omega

theorem wordChar_iff_toNat (c : Char) :
    wordChar c = true ↔
      ((48 ≤ c.toNat ∧ c.toNat ≤ 57) ∨ (65 ≤ c.toNat ∧ c.toNat ≤ 90) ∨
        (97 ≤ c.toNat ∧ c.toNat ≤ 122) ∨ c.toNat = 95) := by
  constructor
  · exact wordChar_toNat
  · intro h
    simp only [wordChar, isAsciiAlpha, isAsciiDigit, Bool.or_eq_true, Bool.and_eq_true,
      decide_eq_true_eq, beq_iff_eq]
    rcases h with ⟨h1, h2⟩ | ⟨h1, h2⟩ | ⟨h1, h2⟩ | h1
    · exact Or.inl (Or.inr ⟨h1, h2⟩)
    · exact Or.inl (Or.inl (Or.inl ⟨h1, h2⟩))
    · exact Or.inl (Or.inl (Or.inr ⟨h1, h2⟩))
    · exact Or.inr (by rw [mem_toNat_eq h1])

/-! ## Decimal rendering -/

theorem charDigit_decChar {d : Nat} (h : d < 10) : charDigit (decChar d) = d := by
  unfold charDigit decChar
  rw [toNat_ofNat_of_valid _ (by omega)]
  omega

theorem decChar_toNat {d : Nat} (h : d < 10) : (decChar d).toNat = 48 + d := by
  unfold decChar
  exact toNat_ofNat_of_valid _ (by omega)

theorem fromDec_append_singleton (l : List Char) (c : Char) :
    fromDec (l ++ [c]) = 10 * fromDec l + charDigit c := by
  simp [fromDec, List.foldl_append]

theorem fromDec_toDecAux : ∀ fuel n, n < 10 ^ fuel → fromDec (toDecAux fuel n) = n := by
  intro fuel
  induction fuel with
  | zero =>
    intro n hn
    interval_cases n
    rfl
  | succ f ih =>
    intro n hn
    unfold toDecAux
    split
    · next h =>
      simp [fromDec, charDigit_decChar h]
    · next h =>
      have hd : n / 10 < 10 ^ f := by
        rw [Nat.div_lt_iff_lt_mul (by omega : (0 : Nat) < 10)]
        have h10 : (10 : Nat) ^ (f + 1) = 10 ^ f * 10 := pow_succ 10 f
        omega
      rw [fromDec_append_singleton, ih (n / 10) hd, charDigit_decChar (Nat.mod_lt n (by omega))]
      omega

theorem fromDec_toDecimal (n : Nat) : fromDec (toDecimal n) = n := by
  refine fromDec_toDecAux (n + 1) n ?_
  calc n < 10 ^ n := Nat.lt_pow_self (by omega) n
    _ ≤ 10 ^ (n + 1) := Nat.pow_le_pow_right (by omega) (by omega)

theorem toDecimal_injective : Function.Injective toDecimal := by
  intro a b h
  have ha := fromDec_toDecimal a
  rw [h, fromDec_toDecimal] at ha
  omega

theorem toDecimal_ne_nil (n : Nat) : toDecimal n ≠ [] := by
  unfold toDecimal toDecAux
  split
  · simp
  · simp

theorem toDecAux_digits : ∀ fuel n, ∀ c ∈ toDecAux fuel n, isAsciiDigit c = true := by
  intro fuel
  induction fuel with
  | zero => intro n c hc; simp [toDecAux] at hc
  | succ f ih =>
    intro n c hc
    unfold toDecAux at hc
    split at hc
    · next h =>
      simp only [List.mem_singleton] at hc
      subst hc
      simp [isAsciiDigit, decChar_toNat h]
      omega
    · next h =>
      rcases List.mem_append.mp hc with h1 | h1
      · exact ih _ c h1
      · simp only [List.mem_singleton] at h1
        subst h1
        have hm : n % 10 < 10 := Nat.mod_lt n (by omega)
        simp [isAsciiDigit, decChar_toNat hm]
        omega

theorem toDecimal_digits (n : Nat) : ∀ c ∈ toDecimal n, isAsciiDigit c = true :=
  toDecAux_digits (n + 1) n

theorem isAsciiDigit_wordChar {c : Char} (h : isAsciiDigit c = true) : wordChar c = true := by
  simp [wordChar, h]

theorem isAsciiDigit_ne_dot {c : Char} (h : isAsciiDigit c = true) : c ≠ '.' := by
  rintro rfl
  revert h
  decide

/-! ## List helpers -/

theorem mem_stripEnds {p : Char → Bool} {l : List Char} {c : Char}
    (h : c ∈ stripEnds p l) : c ∈ l := by
  unfold stripEnds at h
  rw [List.mem_reverse] at h
  have h1 := (List.dropWhile_sublist p).mem h
  rw [List.mem_reverse] at h1
  exact (List.dropWhile_sublist p).mem h1

theorem mem_splitRunsAux {p : Char → Bool} :
    ∀ (l cur r : List Char), r ∈ splitRunsAux p cur l →
      ∀ c ∈ r, c ∈ cur ∨ c ∈ l := by
  intro l
  induction l with
  | nil =>
    intro cur r hr c hc
    unfold splitRunsAux at hr
    split at hr
    · simp at hr
    · simp only [List.mem_singleton] at hr
      subst hr
      rw [List.mem_reverse] at hc
      exact Or.inl hc
  | cons a as ih =>
    intro cur r hr c hc
    unfold splitRunsAux at hr
    split at hr
    · rcases ih (a :: cur) r hr c hc with h1 | h1
      · rcases List.mem_cons.mp h1 with rfl | h2
        · exact Or.inr (List.mem_cons_self _ _)
        · exact Or.inl h2
      · exact Or.inr (List.mem_cons_of_mem _ h1)
    · split at hr
      · rcases ih [] r hr c hc with h1 | h1
        · simp at h1
        · exact Or.inr (List.mem_cons_of_mem _ h1)
      · rcases List.mem_cons.mp hr with rfl | h2
        · rw [List.mem_reverse] at hc
          exact Or.inl hc
        · rcases ih [] r h2 c hc with h1 | h1
          · simp at h1
          · exact Or.inr (List.mem_cons_of_mem _ h1)

theorem mem_splitRuns {p : Char → Bool} {l r : List Char} (hr : r ∈ splitRuns p l) :
    ∀ c ∈ r, c ∈ l := by
  intro c hc
  rcases mem_splitRunsAux l [] r hr c hc with h1 | h1
  · simp at h1
  · exact h1

theorem mem_joinUnderscore :
    ∀ (ps : List (List Char)) (c : Char), c ∈ joinUnderscore ps →
      c = '_' ∨ ∃ w ∈ ps, c ∈ w := by
  intro ps
  induction ps with
  | nil => intro c hc; simp [joinUnderscore] at hc
  | cons w ws ih =>
    intro c hc
    cases ws with
    | nil =>
      exact Or.inr ⟨w, List.mem_cons_self _ _, hc⟩
    | cons w2 ws2 =>
      rw [show joinUnderscore (w :: w2 :: ws2) = w ++ '_' :: joinUnderscore (w2 :: ws2) from rfl]
        at hc
      rcases List.mem_append.mp hc with h1 | h1
      · exact Or.inr ⟨w, List.mem_cons_self _ _, h1⟩
      · rcases List.mem_cons.mp h1 with rfl | h2
        · exact Or.inl rfl
        · rcases ih c h2 with h3 | ⟨v, hv1, hv2⟩
          · exact Or.inl h3
          · exact Or.inr ⟨v, List.mem_cons_of_mem _ hv1, hv2⟩

theorem joinUnderscore_ne_nil {w : List Char} {ws : List (List Char)} (hw : w ≠ []) :
    joinUnderscore (w :: ws) ≠ [] := by
  cases ws with
  | nil => exact hw
  | cons w2 ws2 =>
    rw [show joinUnderscore (w :: w2 :: ws2) = w ++ '_' :: joinUnderscore (w2 :: ws2) from rfl]
    simp

theorem mem_uniq5 :
    ∀ (ws : List (List Char)) (acc : List (List Char)) (x : List Char),
      x ∈ uniq5 acc ws → x ∈ acc ∨ x ∈ ws := by
  intro ws
  induction ws with
  | nil => intro acc x hx; exact Or.inl hx
  | cons w ws' ih =>
    intro acc x hx
    unfold uniq5 at hx
    by_cases hw : w ∈ acc
    · simp only [if_pos hw] at hx
      split at hx
      · exact Or.inl hx
      · rcases ih acc x hx with h1 | h1
        · exact Or.inl h1
        · exact Or.inr (List.mem_cons_of_mem _ h1)
    · simp only [if_neg hw] at hx
      split at hx
      · rcases List.mem_append.mp hx with h1 | h1
        · exact Or.inl h1
        · simp only [List.mem_singleton] at h1
          exact Or.inr (h1 ▸ List.mem_cons_self _ _)
      · rcases ih (acc ++ [w]) x hx with h1 | h1
        · rcases List.mem_append.mp h1 with h2 | h2
          · exact Or.inl h2
          · simp only [List.mem_singleton] at h2
            exact Or.inr (h2 ▸ List.mem_cons_self _ _)
        · exact Or.inr (List.mem_cons_of_mem _ h1)

theorem uniq5_ne_nil_of_acc :
    ∀ (ws acc : List (List Char)), acc ≠ [] → uniq5 acc ws ≠ [] := by
  intro ws
  induction ws with
  | nil => intro acc h; exact h
  | cons w ws' ih =>
    intro acc h
    unfold uniq5
    by_cases hw : w ∈ acc
    · simp only [if_pos hw]
      split
      · exact h
      · exact ih acc h
    · simp only [if_neg hw]
      split
      · simp
      · exact ih (acc ++ [w]) (by simp)

theorem uniq5_ne_nil {ws : List (List Char)} (h : ws ≠ []) : uniq5 [] ws ≠ [] := by
  cases ws with
  | nil => exact absurd rfl h
  | cons w ws' =>
    unfold uniq5
    rw [if_neg (List.not_mem_nil w)]
    simp only [List.nil_append]
    rw [if_neg (by simp : ¬5 ≤ ([w] : List (List Char)).length)]
    exact uniq5_ne_nil_of_acc ws' [w] (by simp)

/-! ## rfindDot / pySuffix / pyStem -/

theorem rfindDot_none : ∀ {l : List Char}, '.' ∉ l → rfindDot l = none := by
  intro l
  induction l with
  | nil => intro _; rfl
  | cons c cs ih =>
    intro h
    have hc : c ≠ '.' := fun hh => h (hh ▸ List.mem_cons_self _ _)
    have hcs : '.' ∉ cs := fun hm => h (List.mem_cons_of_mem _ hm)
    unfold rfindDot
    rw [ih hcs]
    simp [hc]

theorem not_mem_of_rfindDot_none : ∀ {l : List Char}, rfindDot l = none → '.' ∉ l := by
  intro l
  induction l with
  | nil => intro _; simp
  | cons c cs ih =>
    intro h
    unfold rfindDot at h
    cases hcs : rfindDot cs with
    | some i => rw [hcs] at h; simp at h
    | none =>
      rw [hcs] at h
      intro hmem
      rcases List.mem_cons.mp hmem with heq | hm
      · rw [if_pos (by simp [← heq])] at h
        simp at h
      · exact ih hcs hm

theorem rfindDot_append_last (a b : List Char) (hb : '.' ∉ b) :
    rfindDot (a ++ '.' :: b) = some a.length := by
  induction a with
  | nil =>
    simp only [List.nil_append]
    unfold rfindDot
    rw [rfindDot_none hb]
    simp
  | cons c cs ih =>
    rw [List.cons_append]
    unfold rfindDot
    rw [ih]
    simp

theorem rfindDot_some : ∀ (l : List Char) (i : Nat), rfindDot l = some i →
    ∃ b, l.drop i = '.' :: b ∧ '.' ∉ b := by
  intro l
  induction l with
  | nil => intro i h; simp [rfindDot] at h
  | cons c cs ih =>
    intro i h
    unfold rfindDot at h
    cases hcs : rfindDot cs with
    | some j =>
      rw [hcs] at h
      have hij : i = j + 1 := by injection h with h1; omega
      subst hij
      obtain ⟨b, hb1, hb2⟩ := ih j hcs
      exact ⟨b, hb1, hb2⟩
    | none =>
      rw [hcs] at h
      by_cases hc : c = '.'
      · rw [if_pos (by simp [hc])] at h
        have hi : i = 0 := by injection h with h1; omega
        subst hi
        subst hc
        exact ⟨cs, rfl, not_mem_of_rfindDot_none hcs⟩
      · rw [if_neg (by simpa using hc)] at h
        simp at h

theorem pySuffix_rfind_some {name : List Char} {i : Nat} (h : rfindDot name = some i) :
    pySuffix name = if 0 < i ∧ i < name.length - 1 then name.drop i else [] := by
  unfold pySuffix
  rw [h]

theorem pySuffix_rfind_none {name : List Char} (h : rfindDot name = none) :
    pySuffix name = [] := by
  unfold pySuffix
  rw [h]

theorem pyStem_rfind_some {name : List Char} {i : Nat} (h : rfindDot name = some i) :
    pyStem name = if 0 < i ∧ i < name.length - 1 then name.take i else name := by
  unfold pyStem
  rw [h]

theorem pyStem_rfind_none {name : List Char} (h : rfindDot name = none) :
    pyStem name = name := by
  unfold pyStem
  rw [h]

theorem length_append_dot (s e : List Char) :
    (s ++ '.' :: e).length = s.length + e.length + 1 := by
  simp only [List.length_append, List.length_cons]
  omega

theorem pySuffix_append (s e : List Char) (hs : s ≠ []) (he : e ≠ []) (hde : '.' ∉ e) :
    pySuffix (s ++ '.' :: e) = '.' :: e := by
  rw [pySuffix_rfind_some (rfindDot_append_last s e hde)]
  have hlen := length_append_dot s e
  have hcond : 0 < s.length ∧ s.length < (s ++ '.' :: e).length - 1 := by
    have h1 := List.length_pos.mpr hs
    have h2 := List.length_pos.mpr he
    omega
  rw [if_pos hcond]
  exact List.drop_left s ('.' :: e)

theorem pyStem_append (s e : List Char) (hs : s ≠ []) (he : e ≠ []) (hde : '.' ∉ e) :
    pyStem (s ++ '.' :: e) = s := by
  rw [pyStem_rfind_some (rfindDot_append_last s e hde)]
  have hlen := length_append_dot s e
  have hcond : 0 < s.length ∧ s.length < (s ++ '.' :: e).length - 1 := by
    have h1 := List.length_pos.mpr hs
    have h2 := List.length_pos.mpr he
    omega
  rw [if_pos hcond]
  exact List.take_left s ('.' :: e)

theorem pySuffix_no_dot {s : List Char} (hds : '.' ∉ s) : pySuffix s = [] :=
  pySuffix_rfind_none (rfindDot_none hds)

theorem pyStem_no_dot {s : List Char} (hds : '.' ∉ s) : pyStem s = s :=
  pyStem_rfind_none (rfindDot_none hds)

theorem pyStem_append_pySuffix (l : List Char) : pyStem l ++ pySuffix l = l := by
  cases h : rfindDot l with
  | none => rw [pyStem_rfind_none h, pySuffix_rfind_none h, List.append_nil]
  | some i =>
    rw [pyStem_rfind_some h, pySuffix_rfind_some h]
    by_cases hc : 0 < i ∧ i < l.length - 1
    · rw [if_pos hc, if_pos hc]
      exact List.take_append_drop i l
    · rw [if_neg hc, if_neg hc, List.append_nil]

theorem pySuffix_shape (l : List Char) :
    pySuffix l = [] ∨ ∃ e, pySuffix l = '.' :: e ∧ '.' ∉ e ∧ e ≠ [] := by
  cases h : rfindDot l with
  | none => exact Or.inl (pySuffix_rfind_none h)
  | some i =>
    rw [pySuffix_rfind_some h]
    by_cases hc : 0 < i ∧ i < l.length - 1
    · rw [if_pos hc]
      obtain ⟨b, hb1, hb2⟩ := rfindDot_some l i h
      refine Or.inr ⟨b, hb1, hb2, ?_⟩
      have hlen : (l.drop i).length = l.length - i := List.length_drop i l
      rw [hb1] at hlen
      simp only [List.length_cons] at hlen
      intro hbnil
      subst hbnil
      simp at hlen
      omega
    · rw [if_neg hc]
      exact Or.inl rfl

/-! ## Sanitizer lemmas -/

theorem sanitize_filename_eq (s : List Char) :
    sanitize_filename s =
      if stripEnds stripSet (s.filter (fun c => !invalidChar c)) = [] then "unnamed".toList
      else stripEnds stripSet (s.filter (fun c => !invalidChar c)) := rfl

theorem sanitize_filename_ne_nil (s : List Char) : sanitize_filename s ≠ [] := by
  rw [sanitize_filename_eq]
  split
  · decide
  · next h => exact h

theorem mem_sanitize_not_invalid {s : List Char} {c : Char}
    (h : c ∈ sanitize_filename s) : invalidChar c = false := by
  rw [sanitize_filename_eq] at h
  split at h
  · have hall : ∀ c ∈ "unnamed".toList, invalidChar c = false := by decide
    exact hall c h
  · have h1 := mem_stripEnds h
    rw [List.mem_filter] at h1
    simpa using h1.2

/-! ## Conflict resolution -/

theorem suffixedName_injective (stem ext : List Char) : ∀ {m n : Nat},
    suffixedName stem ext m = suffixedName stem ext n → m = n := by
  intro m n h
  unfold suffixedName at h
  have h1 : '_' :: (toDecimal m ++ ext) = '_' :: (toDecimal n ++ ext) :=
    List.append_cancel_left h
  have h2 : toDecimal m ++ ext = toDecimal n ++ ext := by injection h1
  have hlen : (toDecimal m).length = (toDecimal n).length := by
    have := congrArg List.length h2
    simp only [List.length_append] at this
    omega
  exact toDecimal_injective (List.append_inj_left h2 hlen)

theorem suffixedName_ne_base (stem ext : List Char) (n : Nat) :
    suffixedName stem ext n ≠ stem ++ ext := by
  intro h
  have hlen := congrArg List.length h
  unfold suffixedName at hlen
  simp only [List.length_append, List.length_cons] at hlen
  have hd : 0 < (toDecimal n).length :=
    List.length_pos.mpr (toDecimal_ne_nil n)
  omega

theorem suffixed_exists (fs : List (List Char)) (stem ext : List Char) (counter : Nat) :
    ∃ k, k ≤ fs.length ∧ suffixedName stem ext (counter + k) ∉ fs := by
  by_contra hcon
  push_neg at hcon
  have hmem : ∀ k, k ≤ fs.length → suffixedName stem ext (counter + k) ∈ fs := hcon
  have hcard : (Finset.range (fs.length + 1)).card ≤ fs.toFinset.card := by
    refine Finset.card_le_card_of_injOn (fun k => suffixedName stem ext (counter + k)) ?_ ?_
    · intro k hk
      rw [Finset.mem_range] at hk
      rw [List.mem_toFinset]
      exact hmem k (by omega)
    · intro a _ b _ hab
      have := suffixedName_injective stem ext hab
      omega
  rw [Finset.card_range] at hcard
  have := fs.toFinset_card_le
  omega

theorem findFree_spec (fs : List (List Char)) (stem ext : List Char) :
    ∀ fuel counter k, k < fuel →
      suffixedName stem ext (counter + k) ∉ fs →
      (∀ j, j < k → suffixedName stem ext (counter + j) ∈ fs) →
      findFree fs stem ext counter fuel = suffixedName stem ext (counter + k) := by
  intro fuel
  induction fuel with
  | zero => intro counter k hk; omega
  | succ f ih =>
    intro counter k hk hfree hbusy
    unfold findFree
    cases k with
    | zero =>
      rw [if_neg (by simpa using hfree)]
      congr 1
    | succ k' =>
      have hbusy0 : suffixedName stem ext counter ∈ fs := by
        have := hbusy 0 (by omega)
        simpa using this
      rw [if_pos hbusy0]
      have := ih (counter + 1) k' (by omega)
        (by have : counter + 1 + k' = counter + (k' + 1) := by omega
            rw [this]; exact hfree)
        (by intro j hj
            have hj1 : counter + 1 + j = counter + (j + 1) := by omega
            rw [hj1]
            exact hbusy (j + 1) (by omega))
      rw [this]
      congr 1
      omega

theorem handle_conflict_not_mem {fs : List (List Char)} {target : List Char}
    (h : target ∉ fs) : handle_conflict fs target = target := by
  unfold handle_conflict
  rw [if_neg h]

theorem handle_conflict_mem {fs : List (List Char)} {target : List Char}
    (h : target ∈ fs) :
    ∃ n, 1 ≤ n ∧ suffixedName (pyStem target) (pySuffix target) n ∉ fs ∧
      (∀ m, 1 ≤ m → m < n → suffixedName (pyStem target) (pySuffix target) m ∈ fs) ∧
      handle_conflict fs target = suffixedName (pyStem target) (pySuffix target) n := by
  set stem := pyStem target with hstem
  set ext := pySuffix target with hext
  obtain ⟨k, hk1, hk2⟩ := suffixed_exists fs stem ext 1
  have hex : ∃ j, suffixedName stem ext (1 + j) ∉ fs := ⟨k, hk2⟩
  let k0 := Nat.find hex
  have hk0_free : suffixedName stem ext (1 + k0) ∉ fs := Nat.find_spec hex
  have hk0_min : ∀ j, j < k0 → suffixedName stem ext (1 + j) ∈ fs := by
    intro j hj
    have := Nat.find_min hex hj
    by_contra hcc
    exact this hcc
  have hk0_le : k0 ≤ k := Nat.find_min' hex hk2
  refine ⟨1 + k0, by omega, hk0_free, ?_, ?_⟩
  · intro m hm1 hm2
    have hj : m - 1 < k0 := by omega
    have := hk0_min (m - 1) hj
    have hmm : 1 + (m - 1) = m := by omega
    rwa [hmm] at this
  · unfold handle_conflict
    rw [if_pos h]
    exact findFree_spec fs stem ext (fs.length + 1) 1 k0 (by omega) hk0_free hk0_min

/-- The result of `_handle_conflict` never names an existing path. -/
theorem handle_conflict_result_not_mem (fs : List (List Char)) (target : List Char) :
    handle_conflict fs target ∉ fs := by
  by_cases h : target ∈ fs
  · obtain ⟨n, _, hfree, _, heq⟩ := handle_conflict_mem h
    rw [heq]
    exact hfree
  · rw [handle_conflict_not_mem h]
    exact h

/-! ## Move-with-retry lemmas -/

theorem moveGo_success {outcome : Nat → MoveOutcome} {retries fuel attempt : Nat}
    (h : outcome attempt = .success) :
    moveGo outcome retries (fuel + 1) attempt = ⟨.ok, 1, 0⟩ := by
  unfold moveGo
  rw [h]

theorem moveGo_os {outcome : Nat → MoveOutcome} {retries fuel attempt : Nat}
    (h : outcome attempt = .osError) :
    moveGo outcome retries (fuel + 1) attempt = ⟨.osFailure, 1, 0⟩ := by
  unfold moveGo
  rw [h]

theorem moveGo_perm {outcome : Nat → MoveOutcome} {retries fuel attempt : Nat}
    (h : outcome attempt = .permError) :
    moveGo outcome retries (fuel + 1) attempt =
      if attempt < retries - 1 then
        let r := moveGo outcome retries fuel (attempt + 1)
        ⟨r.result, r.attempts + 1, r.sleepSeconds + 2⟩
      else ⟨.permExhausted, 1, 0⟩ := by
  conv_lhs => unfold moveGo; rw [h]

theorem moveGo_all_perm (outcome : Nat → MoveOutcome) (retries : Nat) :
    ∀ fuel a, 1 ≤ fuel → a + fuel = retries →
      (∀ i, a ≤ i → i < retries → outcome i = .permError) →
      moveGo outcome retries fuel a = ⟨.permExhausted, fuel, 2 * (fuel - 1)⟩ := by
  intro fuel
  induction fuel with
  | zero => intro a h1 _ _; omega
  | succ f ih =>
    intro a _ h2 h3
    rw [moveGo_perm (h3 a (by omega) (by omega))]
    by_cases hf : f = 0
    · subst hf
      rw [if_neg (by omega)]
    · rw [if_pos (by omega : a < retries - 1)]
      rw [ih (a + 1) (by omega) (by omega) (fun i hi1 hi2 => h3 i (by omega) hi2)]
      simp [MoveTrace.mk.injEq]
      all_goals omega

theorem moveGo_first_dev (outcome : Nat → MoveOutcome) (retries : Nat) :
    ∀ fuel a i, a + fuel = retries → a ≤ i → i < retries →
      (∀ j, a ≤ j → j < i → outcome j = .permError) →
      (outcome i = .osError →
        moveGo outcome retries fuel a = ⟨.osFailure, i - a + 1, 2 * (i - a)⟩)
      ∧ (outcome i = .success →
        moveGo outcome retries fuel a = ⟨.ok, i - a + 1, 2 * (i - a)⟩) := by
  intro fuel
  induction fuel with
  | zero => intro a i h1 h2 h3 _; omega
  | succ f ih =>
    intro a i h1 h2 h3 h4
    by_cases hai : i = a
    · subst hai
      constructor
      · intro hos
        rw [moveGo_os hos]
        simp [MoveTrace.mk.injEq]
      · intro hsu
        rw [moveGo_success hsu]
        simp [MoveTrace.mk.injEq]
    · have hperm : outcome a = .permError := h4 a (by omega) (by omega)
      rw [moveGo_perm hperm]
      rw [if_pos (by omega : a < retries - 1)]
      obtain ⟨ih_os, ih_s⟩ :=
        ih (a + 1) i (by omega) (by omega) h3 (fun j hj1 hj2 => h4 j (by omega) hj2)
      constructor
      · intro hos
        rw [ih_os hos]
        simp [MoveTrace.mk.injEq]
        all_goals omega
      · intro hsu
        rw [ih_s hsu]
        simp [MoveTrace.mk.injEq]
        all_goals omega

/-- `extract_text` with its `let` binding zeta-reduced. -/
theorem extract_text_eq (max_length : Nat) (fileExists : Bool) (pathName : List Char)
    (reader : Except TextExtractionError (List Char)) :
    extract_text max_length fileExists pathName reader =
      if !fileExists then .error .notFound
      else if ((pySuffix pathName).map lowerChar = ".pdf".toList ∨
          (pySuffix pathName).map lowerChar = ".txt".toList ∨
          (pySuffix pathName).map lowerChar = ".text".toList) then
        match reader with
        | .ok text => .ok (text.take max_length)
        | .error e => .error e
      else .error .unsupported := rfl

/-! ## Claim theorems -/

/-- C1: `LLMService.generate_filename` never raises (it is a total function
in this embedding): an empty or all-whitespace `content_sample` returns the
fallback name immediately, an exception inside the active mode's generator
(`gen = .error ()`) is caught and converted to the fallback name, and the
fallback name is exactly `"document_"` followed by the current local
timestamp formatted as `YYYYMMDD_HHMMSS`. -/
theorem claim_C1 (mode : String) (gen : Except Unit (List Char))
    (content_sample : List Char) (now : DateTime) :
    (content_sample.all pyIsSpace = true →
      generate_filename mode gen content_sample now = fallback_filename now)
    ∧ (gen = .error () →
      generate_filename mode gen content_sample now = fallback_filename now)
    ∧ fallback_filename now =
        "document_".toList ++
          (padDec 4 now.year ++ padDec 2 now.month ++ padDec 2 now.day ++
            '_' :: (padDec 2 now.hour ++ padDec 2 now.minute ++ padDec 2 now.second)) := by
  refine ⟨?_, ?_, rfl⟩
  · intro h
    unfold generate_filename
    rw [if_pos h]
  · rintro rfl
    unfold generate_filename
    split
    · rfl
    · split
      · rfl
      · rfl

/-- Witness for C1 at concrete inputs: an all-whitespace sample and a raising
generator both yield the fallback name. -/
theorem claim_C1_witness :
    (" \t".toList.all pyIsSpace = true)
    ∧ generate_filename "simulated" (.error ()) " \t".toList sampleNow = fallback_filename sampleNow
    ∧ generate_filename "bedrock" (.error ()) "quarterly report".toList sampleNow =
        fallback_filename sampleNow :=
  ⟨by decide,
    (claim_C1 "simulated" (.error ()) " \t".toList sampleNow).1 (by decide),
    (claim_C1 "bedrock" (.error ()) "quarterly report".toList sampleNow).2.1 rfl⟩

/-- C2: when the extraction stage raises a `TextExtractionError` (e.g. on a
`.pdf` with unparsable bytes), `FileProcessor.process_file` does not abort:
the naming stage is invoked with an empty content sample, the resulting
name is the fallback name, and the organize stage is still attempted with
that name. -/
theorem claim_C2 (e : TextExtractionError) (mode : String) (gen : Except Unit (List Char))
    (organize : List Char → Except Unit Bool) (now : DateTime) :
    (process_file (.error e) mode gen organize now).content_sample = []
    ∧ (process_file (.error e) mode gen organize now).new_name = fallback_filename now
    ∧ (process_file (.error e) mode gen organize now).organized =
        organize (fallback_filename now) := by
  have hname : generate_filename mode gen [] now = fallback_filename now := by
    unfold generate_filename
    rw [if_pos (by rfl)]
  refine ⟨rfl, hname, ?_⟩
  show organize (generate_filename mode gen [] now) = organize (fallback_filename now)
  rw [hname]

/-- C6: `_sanitize_filename` removes every invalid character (the nine
forbidden characters and the control ranges), strips leading/trailing
spaces and dots, substitutes `"unnamed"` exactly when the result is empty,
and in particular maps `"   "` and `"///"` to `"unnamed"`. -/
theorem claim_C6 (s : List Char) :
    (∀ c ∈ sanitize_filename s, invalidChar c = false)
    ∧ sanitize_filename s ≠ []
    ∧ (stripEnds stripSet (s.filter (fun c => !invalidChar c)) = [] →
        sanitize_filename s = "unnamed".toList)
    ∧ (stripEnds stripSet (s.filter (fun c => !invalidChar c)) ≠ [] →
        sanitize_filename s = stripEnds stripSet (s.filter (fun c => !invalidChar c)))
    ∧ sanitize_filename "   ".toList = "unnamed".toList
    ∧ sanitize_filename "///".toList = "unnamed".toList := by
  refine ⟨fun c hc => mem_sanitize_not_invalid hc, sanitize_filename_ne_nil s, ?_, ?_,
    by decide, by decide⟩
  · intro h
    rw [sanitize_filename_eq, if_pos h]
  · intro h
    rw [sanitize_filename_eq, if_neg h]

/-- Witness for C6 at a concrete input containing invalid characters and
boundary spaces/dots. -/
theorem claim_C6_witness :
    (∀ c ∈ sanitize_filename " My:Report? .".toList, invalidChar c = false)
    ∧ sanitize_filename " My:Report? .".toList ≠ []
    ∧ sanitize_filename " My:Report? .".toList = "MyReport".toList := by
  obtain ⟨h1, h2, _, h4, _, _⟩ := claim_C6 " My:Report? .".toList
  exact ⟨h1, h2, (h4 (by decide)).trans (by decide)⟩

/-- C7: the text returned by `extract_text` has length (in characters) at
most `max_length`; it equals the normalized source text when that is
shorter than `max_length`, and otherwise it is the exact-length prefix of
the normalized source. -/
theorem claim_C7 (max_length : Nat) (fileExists : Bool) (pathName : List Char)
    (reader : Except TextExtractionError (List Char)) (t src : List Char)
    (hok : extract_text max_length fileExists pathName reader = .ok t)
    (hsrc : reader = .ok src) :
    t.length ≤ max_length
    ∧ t = src.take max_length
    ∧ (src.length < max_length → t = src)
    ∧ (max_length ≤ src.length → t.length = max_length) := by
  subst hsrc
  rw [extract_text_eq] at hok
  cases fileExists with
  | false => simp at hok
  | true =>
    rw [if_neg (by simp)] at hok
    by_cases hsup : ((pySuffix pathName).map lowerChar = ".pdf".toList ∨
        (pySuffix pathName).map lowerChar = ".txt".toList ∨
        (pySuffix pathName).map lowerChar = ".text".toList)
    · rw [if_pos hsup] at hok
      have heq : src.take max_length = t := by injection hok
      subst heq
      refine ⟨?_, rfl, ?_, ?_⟩
      · rw [List.length_take]
        omega
      · intro h
        exact List.take_of_length_le (by omega)
      · intro h
        rw [List.length_take]
        omega
    · rw [if_neg hsup] at hok
      simp at hok

/-- Witness for C7: a `.txt` file whose 11-character source is truncated to
5 characters. -/
theorem claim_C7_witness :
    "hello".toList.length ≤ 5
    ∧ "hello".toList = "hello world".toList.take 5
    ∧ ("hello world".toList.length < 5 → "hello".toList = "hello world".toList)
    ∧ (5 ≤ "hello world".toList.length → "hello".toList.length = 5) :=
  claim_C7 5 true "f.txt".toList (.ok "hello world".toList) "hello".toList
    "hello world".toList (by rfl) rfl

/-- C10: the conflict-resolution probe terminates and is correct: it returns
the unsuffixed target when that does not exist, and otherwise the suffixed
name `stem_n + ext` for the least positive `n` whose path does not exist;
such an `n` always exists because only finitely many paths exist. -/
theorem claim_C10 (fs : List (List Char)) (target : List Char) :
    (target ∉ fs → handle_conflict fs target = target)
    ∧ (target ∈ fs → ∃ n, 1 ≤ n
        ∧ suffixedName (pyStem target) (pySuffix target) n ∉ fs
        ∧ (∀ m, 1 ≤ m → m < n → suffixedName (pyStem target) (pySuffix target) m ∈ fs)
        ∧ handle_conflict fs target = suffixedName (pyStem target) (pySuffix target) n) :=
  ⟨fun h => handle_conflict_not_mem h, fun h => handle_conflict_mem h⟩

/-- Witness for C10: with `x.txt` and `x_1.txt` present, probing `x.txt`
succeeds (concretely yielding `x_2.txt`), and a fresh `y.txt` is kept. -/
theorem claim_C10_witness :
    ("y.txt".toList ∉ ["x.txt".toList, "x_1.txt".toList]
      ∧ handle_conflict ["x.txt".toList, "x_1.txt".toList] "y.txt".toList = "y.txt".toList)
    ∧ ("x.txt".toList ∈ ["x.txt".toList, "x_1.txt".toList]
      ∧ ∃ n, 1 ≤ n
        ∧ suffixedName (pyStem "x.txt".toList) (pySuffix "x.txt".toList) n ∉
            ["x.txt".toList, "x_1.txt".toList]
        ∧ (∀ m, 1 ≤ m → m < n →
            suffixedName (pyStem "x.txt".toList) (pySuffix "x.txt".toList) m ∈
              ["x.txt".toList, "x_1.txt".toList])
        ∧ handle_conflict ["x.txt".toList, "x_1.txt".toList] "x.txt".toList =
            suffixedName (pyStem "x.txt".toList) (pySuffix "x.txt".toList) n) :=
  ⟨⟨by decide, (claim_C10 ["x.txt".toList, "x_1.txt".toList] "y.txt".toList).1 (by decide)⟩,
    by decide,
    (claim_C10 ["x.txt".toList, "x_1.txt".toList] "x.txt".toList).2 (by decide)⟩

/-- C5: in `_move_with_retry`, a permission-denied failure is retried up to
`retries` attempts (default 3 in the source) with a fixed 2-second sleep
between attempts; only after all attempts fail with permission errors does
the move fail with the permission-exhausted error (having slept
`2 * (retries - 1)` seconds); any other OS-level failure at any attempt
causes an immediate failure with no further attempts. -/
theorem claim_C5 (outcome : Nat → MoveOutcome) (retries : Nat) (hr : 1 ≤ retries) :
    ((∀ i, i < retries → outcome i = .permError) →
      move_with_retry outcome retries = ⟨.permExhausted, retries, 2 * (retries - 1)⟩)
    ∧ (∀ i, i < retries → (∀ j, j < i → outcome j = .permError) → outcome i = .osError →
      move_with_retry outcome retries = ⟨.osFailure, i + 1, 2 * i⟩)
    ∧ (∀ i, i < retries → (∀ j, j < i → outcome j = .permError) → outcome i = .success →
      move_with_retry outcome retries = ⟨.ok, i + 1, 2 * i⟩) := by
  refine ⟨?_, ?_, ?_⟩
  · intro hall
    exact moveGo_all_perm outcome retries retries 0 (by omega) (by omega)
      (fun i _ hi => hall i hi)
  · intro i hi hj hos
    have h := (moveGo_first_dev outcome retries retries 0 i (by omega) (by omega) hi
      (fun j _ hji => hj j hji)).1 hos
    unfold move_with_retry
    rw [h]
    simp [MoveTrace.mk.injEq]
  · intro i hi hj hsu
    have h := (moveGo_first_dev outcome retries retries 0 i (by omega) (by omega) hi
      (fun j _ hji => hj j hji)).2 hsu
    unfold move_with_retry
    rw [h]
    simp [MoveTrace.mk.injEq]

/-- Witness for C5 at `retries = 3`: three permission errors exhaust the
attempts after two 2-second sleeps; an OS error on the second attempt
fails immediately after one sleep. -/
theorem claim_C5_witness :
    move_with_retry (fun _ => .permError) 3 = ⟨.permExhausted, 3, 2 * (3 - 1)⟩
    ∧ move_with_retry (fun i => if i = 1 then .osError else .permError) 3 =
        ⟨.osFailure, 1 + 1, 2 * 1⟩ :=
  ⟨(claim_C5 (fun _ => .permError) 3 (by omega)).1 (fun i _ => rfl),
    (claim_C5 (fun i => if i = 1 then .osError else .permError) 3 (by omega)).2.1 1
      (by omega)
      (fun j hj => by
        have hj0 : j = 0 := by omega
        subst hj0
        rfl)
      rfl⟩

/-! ## C4: extension preservation -/

theorem dot_not_mem_suffixed_of_no_dot {s : List Char} (hdot : '.' ∉ s) (n : Nat) :
    '.' ∉ suffixedName s [] n := by
  unfold suffixedName
  intro hmem
  rcases List.mem_append.mp hmem with h2 | h2
  · exact hdot h2
  · rcases List.mem_cons.mp h2 with h3 | h3
    · exact absurd h3 (by decide)
    · rcases List.mem_append.mp h3 with h4 | h4
      · exact isAsciiDigit_ne_dot (toDecimal_digits n _ h4) rfl
      · simp at h4

theorem pySuffix_handle_conflict (fs : List (List Char)) (s ext : List Char) (hsne : s ≠ [])
    (h : (ext = [] ∧ '.' ∉ s) ∨ ∃ e, ext = '.' :: e ∧ '.' ∉ e ∧ e ≠ []) :
    pySuffix (handle_conflict fs (s ++ ext)) = ext := by
  have hcases : handle_conflict fs (s ++ ext) = s ++ ext
      ∨ ∃ n, 1 ≤ n ∧ handle_conflict fs (s ++ ext) =
          suffixedName (pyStem (s ++ ext)) (pySuffix (s ++ ext)) n := by
    by_cases hm : (s ++ ext) ∈ fs
    · obtain ⟨n, hn1, _, _, heq⟩ := handle_conflict_mem hm
      exact Or.inr ⟨n, hn1, heq⟩
    · exact Or.inl (handle_conflict_not_mem hm)
  rcases h with ⟨hextnil, hdot⟩ | ⟨e, hee, hde, hne⟩
  · subst hextnil
    rw [List.append_nil] at hcases
    rcases hcases with hcase | ⟨n, hn1, hcase⟩
    · rw [List.append_nil, hcase, pySuffix_no_dot hdot]
    · rw [List.append_nil, hcase, pyStem_no_dot hdot, pySuffix_no_dot hdot]
      exact pySuffix_no_dot (dot_not_mem_suffixed_of_no_dot hdot n)
  · subst hee
    have hsfx : pySuffix (s ++ '.' :: e) = '.' :: e := pySuffix_append s e hsne hne hde
    have hstm : pyStem (s ++ '.' :: e) = s := pyStem_append s e hsne hne hde
    rcases hcases with hcase | ⟨n, hn1, hcase⟩
    · rw [hcase, hsfx]
    · rw [hcase, hstm, hsfx]
      have hassoc : suffixedName s ('.' :: e) n = (s ++ '_' :: toDecimal n) ++ '.' :: e := by
        unfold suffixedName
        simp [List.append_assoc]
      rw [hassoc]
      exact pySuffix_append _ e (by simp) hne hde

/-- C4 (amended): the extension of the final organized path equals the
extension of the source path, provided the source extension is nonempty or
the sanitized candidate name contains no dot.  (For an extension-less
source and a dotted candidate the claim fails, see the counterexample.) -/
theorem claim_C4 (fs : List (List Char)) (srcName cand : List Char)
    (h : pySuffix srcName ≠ [] ∨ '.' ∉ sanitize_filename cand) :
    pySuffix (organize_target fs srcName cand) = pySuffix srcName := by
  unfold organize_target
  apply pySuffix_handle_conflict fs (sanitize_filename cand) (pySuffix srcName)
    (sanitize_filename_ne_nil cand)
  rcases pySuffix_shape srcName with h1 | ⟨e, he, hde, hne⟩
  · left
    refine ⟨h1, ?_⟩
    rcases h with h2 | h2
    · exact absurd h1 h2
    · exact h2
  · right
    exact ⟨e, he, hde, hne⟩

/-- Witness for C4 at a concrete conflicting input with a real extension:
a second `Report.txt` is organized as `Report_1.txt`, preserving `.txt`. -/
theorem claim_C4_witness :
    (pySuffix "doc.txt".toList ≠ [] ∨ '.' ∉ sanitize_filename "Report".toList)
    ∧ pySuffix (organize_target ["Report.txt".toList] "doc.txt".toList "Report".toList) =
        pySuffix "doc.txt".toList :=
  ⟨Or.inl (by decide),
    claim_C4 ["Report.txt".toList] "doc.txt".toList "Report".toList (Or.inl (by decide))⟩

/-- Counterexample to C4 as stated: organizing a source without extension
under the dotted candidate name `a.b` (with `a.b` already present) yields
`a_1.b`, whose extension `.b` differs from the source's empty extension —
conflict resolution even splits the candidate at its dot. -/
theorem claim_C4_counterexample :
    organize_target ["a.b".toList] "doc".toList "a.b".toList = "a_1.b".toList
    ∧ pySuffix "a_1.b".toList = ".b".toList
    ∧ pySuffix "doc".toList = []
    ∧ pySuffix (organize_target ["a.b".toList] "doc".toList "a.b".toList) ≠
        pySuffix "doc".toList := by
  refine ⟨by decide, by decide, by decide, by decide⟩

/-! ## C3: sequential organizing under the same candidate name -/

theorem expectedName_eq (srcName cand : List Char) (k : Nat) :
    expectedName srcName cand k =
      if k = 0 then sanitize_filename cand ++ pySuffix srcName
      else suffixedName (pyStem (sanitize_filename cand ++ pySuffix srcName))
        (pySuffix (sanitize_filename cand ++ pySuffix srcName)) k := rfl

theorem suffixed_base_ne (srcName cand : List Char) (n : Nat) :
    suffixedName (pyStem (sanitize_filename cand ++ pySuffix srcName))
      (pySuffix (sanitize_filename cand ++ pySuffix srcName)) n ≠
      sanitize_filename cand ++ pySuffix srcName := by
  have h := suffixedName_ne_base (pyStem (sanitize_filename cand ++ pySuffix srcName))
    (pySuffix (sanitize_filename cand ++ pySuffix srcName)) n
  rwa [pyStem_append_pySuffix] at h

theorem expectedName_injective (srcName cand : List Char) :
    Function.Injective (expectedName srcName cand) := by
  intro a b hab
  rw [expectedName_eq, expectedName_eq] at hab
  by_cases ha : a = 0 <;> by_cases hb : b = 0
  · omega
  · rw [if_pos ha, if_neg hb] at hab
    exact absurd hab.symm (suffixed_base_ne srcName cand b)
  · rw [if_neg ha, if_pos hb] at hab
    exact absurd hab (suffixed_base_ne srcName cand a)
  · rw [if_neg ha, if_neg hb] at hab
    exact suffixedName_injective _ _ hab

theorem organizeSeq_fresh (fs₀ : List (List Char)) (srcName cand : List Char) :
    ∀ (m j : Nat),
      (sanitize_filename cand ++ pySuffix srcName) ∉ fs₀ →
      (∀ k, 1 ≤ k → k < j + m →
        suffixedName (pyStem (sanitize_filename cand ++ pySuffix srcName))
          (pySuffix (sanitize_filename cand ++ pySuffix srcName)) k ∉ fs₀) →
      organizeSeq (((List.range j).map (expectedName srcName cand)).reverse ++ fs₀)
          srcName cand m =
        (List.range' j m).map (expectedName srcName cand) := by
  intro m
  induction m with
  | zero => intro j _ _; rfl
  | succ m ih =>
    intro j hb hfresh
    have hstep :
        organize_target (((List.range j).map (expectedName srcName cand)).reverse ++ fs₀)
          srcName cand = expectedName srcName cand j := by
      unfold organize_target
      by_cases hj : j = 0
      · subst hj
        simp only [List.range_zero, List.map_nil, List.reverse_nil, List.nil_append]
        rw [handle_conflict_not_mem hb]
        rfl
      · have hmem : (sanitize_filename cand ++ pySuffix srcName) ∈
            ((List.range j).map (expectedName srcName cand)).reverse ++ fs₀ := by
          refine List.mem_append.mpr (Or.inl ?_)
          rw [List.mem_reverse]
          refine List.mem_map.mpr ⟨0, ?_, rfl⟩
          rw [List.mem_range]
          omega
        unfold handle_conflict
        rw [if_pos hmem]
        have hlen : j ≤ (((List.range j).map (expectedName srcName cand)).reverse ++ fs₀).length := by
          rw [List.length_append, List.length_reverse, List.length_map, List.length_range]
          omega
        have hres := findFree_spec
          (((List.range j).map (expectedName srcName cand)).reverse ++ fs₀)
          (pyStem (sanitize_filename cand ++ pySuffix srcName))
          (pySuffix (sanitize_filename cand ++ pySuffix srcName))
          ((((List.range j).map (expectedName srcName cand)).reverse ++ fs₀).length + 1)
          1 (j - 1) (by omega) ?_ ?_
        · rw [hres]
          rw [expectedName_eq, if_neg hj]
          congr 1
          omega
        · -- the j-th suffixed name is free
          have h1j : 1 + (j - 1) = j := by omega
          rw [h1j]
          intro hmem2
          rcases List.mem_append.mp hmem2 with h2 | h2
          · rw [List.mem_reverse] at h2
            obtain ⟨i, hi1, hi2⟩ := List.mem_map.mp h2
            rw [List.mem_range] at hi1
            rw [expectedName_eq] at hi2
            by_cases hi0 : i = 0
            · rw [if_pos hi0] at hi2
              exact suffixed_base_ne srcName cand j hi2.symm
            · rw [if_neg hi0] at hi2
              have := suffixedName_injective _ _ hi2
              omega
          · exact hfresh j (by omega) (by omega) h2
        · -- suffixed names below j are busy
          intro jj hjj
          refine List.mem_append.mpr (Or.inl ?_)
          rw [List.mem_reverse]
          refine List.mem_map.mpr ⟨1 + jj, ?_, ?_⟩
          · rw [List.mem_range]
            omega
          · rw [expectedName_eq, if_neg (by omega : ¬1 + jj = 0)]
    show (organize_target _ srcName cand) ::
        organizeSeq ((organize_target _ srcName cand) :: _) srcName cand m = _
    rw [hstep]
    have hfs : expectedName srcName cand j ::
        (((List.range j).map (expectedName srcName cand)).reverse ++ fs₀) =
        ((List.range (j + 1)).map (expectedName srcName cand)).reverse ++ fs₀ := by
      rw [List.range_succ, List.map_append, List.reverse_append]
      rfl
    rw [hfs, ih (j + 1) hb (fun k hk1 hk2 => hfresh k hk1 (by omega))]
    rfl

/-- C3: organizing `N` files in sequence under the same candidate name into
an organized root initially containing neither the unsuffixed name nor any
relevant suffixed name yields the unsuffixed sanitized name first and then
`_1`, `_2`, ..., `_(N-1)` in creation order, and these final names are
pairwise distinct. -/
theorem claim_C3 (fs₀ : List (List Char)) (srcName cand : List Char) (N : Nat)
    (hb : sanitize_filename cand ++ pySuffix srcName ∉ fs₀)
    (hfresh : ∀ k, 1 ≤ k → k < N →
      suffixedName (pyStem (sanitize_filename cand ++ pySuffix srcName))
        (pySuffix (sanitize_filename cand ++ pySuffix srcName)) k ∉ fs₀) :
    organizeSeq fs₀ srcName cand N = (List.range N).map (expectedName srcName cand)
    ∧ ((List.range N).map (expectedName srcName cand)).Nodup := by
  constructor
  · have h := organizeSeq_fresh fs₀ srcName cand N 0 hb
      (fun k hk1 hk2 => hfresh k hk1 (by omega))
    simp only [List.range_zero, List.map_nil, List.reverse_nil, List.nil_append] at h
    rw [h, List.range_eq_range']
  · exact (List.nodup_range N).map (expectedName_injective srcName cand)

/-- Witness for C3: three files with candidate name `Report` and source
shape `doc.txt` land as `Report.txt`, `Report_1.txt`, `Report_2.txt`. -/
theorem claim_C3_witness :
    organizeSeq [] "doc.txt".toList "Report".toList 3 =
      (List.range 3).map (expectedName "doc.txt".toList "Report".toList)
    ∧ ((List.range 3).map (expectedName "doc.txt".toList "Report".toList)).Nodup
    ∧ organizeSeq [] "doc.txt".toList "Report".toList 3 =
        ["Report.txt".toList, "Report_1.txt".toList, "Report_2.txt".toList] := by
  obtain ⟨h1, h2⟩ := claim_C3 [] "doc.txt".toList "Report".toList 3
    (by simp)
    (fun k _ _ => by simp)
  exact ⟨h1, h2, by decide⟩

/-! ## C8: naming-service output hygiene -/

theorem alpha_lower_range {l : List Char} {c : Char} (hm : c ∈ l.map lowerChar)
    (ha : isAsciiAlpha c = true) : 97 ≤ c.toNat ∧ c.toNat ≤ 122 := by
  obtain ⟨c₀, _, rfl⟩ := List.mem_map.mp hm
  have h1 := lowerChar_not_upper c₀
  simp only [isAsciiAlpha, Bool.or_eq_true, Bool.and_eq_true, decide_eq_true_eq] at ha
  rcases ha with ⟨ha1, ha2⟩ | ⟨ha1, ha2⟩
  · exact absurd ⟨ha1, ha2⟩ h1
  · exact ⟨ha1, ha2⟩

theorem capitalizePy_wordChar {w : List Char} (hw : ∀ c ∈ w, 97 ≤ c.toNat ∧ c.toNat ≤ 122) :
    ∀ c ∈ capitalizePy w, wordChar c = true := by
  intro c hc
  cases w with
  | nil => simp [capitalizePy] at hc
  | cons c0 cs =>
    rw [show capitalizePy (c0 :: cs) = upperChar c0 :: cs.map lowerChar from rfl] at hc
    rcases List.mem_cons.mp hc with rfl | hm
    · have h0 := hw c0 (List.mem_cons_self _ _)
      rw [wordChar_iff_toNat, upperChar_toNat, if_pos h0]
      omega
    · obtain ⟨c1, hc1, rfl⟩ := List.mem_map.mp hm
      have h1 := hw c1 (List.mem_cons_of_mem _ hc1)
      rw [wordChar_iff_toNat, lowerChar_toNat, if_neg (by omega)]
      omega

theorem capitalizePy_ne_nil {w : List Char} (hw : w ≠ []) : capitalizePy w ≠ [] := by
  cases w with
  | nil => exact absurd rfl hw
  | cons c cs => simp [capitalizePy]

theorem padDec_wordChar (w n : Nat) : ∀ c ∈ padDec w n, wordChar c = true := by
  intro c hc
  rcases List.mem_append.mp hc with h1 | h1
  · rw [List.eq_of_mem_replicate h1]
    decide
  · exact isAsciiDigit_wordChar (toDecimal_digits n c h1)

theorem fallback_wordChar (now : DateTime) :
    ∀ c ∈ fallback_filename now, wordChar c = true := by
  intro c hc
  unfold fallback_filename strftimeTS at hc
  rcases List.mem_append.mp hc with h1 | h1
  · have hd : ∀ c ∈ "document_".toList, wordChar c = true := by decide
    exact hd c h1
  · rcases List.mem_append.mp h1 with h2 | h2
    · rcases List.mem_append.mp h2 with h3 | h3
      · rcases List.mem_append.mp h3 with h4 | h4
        · exact padDec_wordChar 4 now.year c h4
        · exact padDec_wordChar 2 now.month c h4
      · exact padDec_wordChar 2 now.day c h3
    · rcases List.mem_cons.mp h2 with rfl | h3
      · decide
      · rcases List.mem_append.mp h3 with h4 | h4
        · rcases List.mem_append.mp h4 with h5 | h5
          · exact padDec_wordChar 2 now.hour c h5
          · exact padDec_wordChar 2 now.minute c h5
        · exact padDec_wordChar 2 now.second c h4

theorem fallback_ne_nil (now : DateTime) : fallback_filename now ≠ [] := by
  intro h
  have := congrArg List.length h
  simp [fallback_filename] at this

/-- `simulate_filename` with its `let` bindings zeta-reduced. -/
theorem simulate_filename_eq (content_sample : List Char) (now : DateTime) :
    simulate_filename content_sample now =
      if uniq5 [] ((findallAlpha4 ((stripEnds pyIsSpace content_sample).map lowerChar)).filter
          (fun w => w ∉ common_words)) ≠ [] then
        joinUnderscore (((uniq5 [] ((findallAlpha4 ((stripEnds pyIsSpace
          content_sample).map lowerChar)).filter
          (fun w => w ∉ common_words))).take 3).map capitalizePy)
      else if (pySplit (stripEnds pyIsSpace content_sample)).take 3 ≠ [] then
        if (joinUnderscore (((pySplit (stripEnds pyIsSpace content_sample)).take 3).map
            capitalizePy)).filter (fun c => isAsciiAlpha c || isAsciiDigit c || c == '_') ≠ []
        then
          (joinUnderscore (((pySplit (stripEnds pyIsSpace content_sample)).take 3).map
            capitalizePy)).filter (fun c => isAsciiAlpha c || isAsciiDigit c || c == '_')
        else fallback_filename now
      else fallback_filename now := rfl

theorem simulate_filename_good (content_sample : List Char) (now : DateTime) :
    simulate_filename content_sample now ≠ []
    ∧ ∀ c ∈ simulate_filename content_sample now, wordChar c = true := by
  rw [simulate_filename_eq]
  generalize hK : (findallAlpha4 ((stripEnds pyIsSpace content_sample).map lowerChar)).filter
      (fun w => w ∉ common_words) = K
  by_cases h1 : uniq5 [] K ≠ []
  · rw [if_pos h1]
    have htok : ∀ w ∈ uniq5 [] K, w ≠ [] ∧ ∀ c ∈ w, 97 ≤ c.toNat ∧ c.toNat ≤ 122 := by
      intro w hw
      have hwK : w ∈ K := by
        rcases mem_uniq5 K [] w hw with h2 | h2
        · simp at h2
        · exact h2
      rw [← hK, List.mem_filter] at hwK
      have hwf := hwK.1
      unfold findallAlpha4 at hwf
      obtain ⟨hw1, hw2⟩ := List.mem_filter.mp hwf
      rw [Bool.and_eq_true, decide_eq_true_eq] at hw2
      obtain ⟨hall, hlen4⟩ := hw2
      constructor
      · intro hnil
        rw [hnil] at hlen4
        simp at hlen4
      · intro c hc
        have hca : isAsciiAlpha c = true := by
          rw [List.all_eq_true] at hall
          exact hall c hc
        exact alpha_lower_range (mem_splitRuns hw1 c hc) hca
    obtain ⟨u0, us, hu⟩ : ∃ u0 us, uniq5 [] K = u0 :: us := by
      cases hcase : uniq5 [] K with
      | nil => exact absurd hcase h1
      | cons a b => exact ⟨a, b, rfl⟩
    refine ⟨?_, ?_⟩
    · rw [hu, List.take_succ_cons, List.map_cons]
      exact joinUnderscore_ne_nil
        (capitalizePy_ne_nil (htok u0 (hu ▸ List.mem_cons_self _ _)).1)
    · intro c hc
      rcases mem_joinUnderscore _ c hc with rfl | ⟨p, hp1, hp2⟩
      · decide
      · obtain ⟨w, hw1, rfl⟩ := List.mem_map.mp hp1
        have hw2 : w ∈ uniq5 [] K := List.take_subset _ _ hw1
        exact capitalizePy_wordChar (htok w hw2).2 c hp2
  · rw [if_neg h1]
    by_cases h2 : (pySplit (stripEnds pyIsSpace content_sample)).take 3 ≠ []
    · rw [if_pos h2]
      by_cases h3 : (joinUnderscore (((pySplit (stripEnds pyIsSpace
          content_sample)).take 3).map capitalizePy)).filter
          (fun c => isAsciiAlpha c || isAsciiDigit c || c == '_') ≠ []
      · rw [if_pos h3]
        refine ⟨h3, ?_⟩
        intro c hc
        rw [List.mem_filter] at hc
        exact hc.2
      · rw [if_neg h3]
        exact ⟨fallback_ne_nil now, fallback_wordChar now⟩
    · rw [if_neg h2]
      exact ⟨fallback_ne_nil now, fallback_wordChar now⟩

theorem generate_simulated_good (content_sample : List Char) (now : DateTime) :
    generate_filename_simulated content_sample now ≠ []
    ∧ ∀ c ∈ generate_filename_simulated content_sample now, wordChar c = true := by
  unfold generate_filename_simulated generate_filename
  by_cases h : content_sample.all pyIsSpace
  · rw [if_pos h]
    exact ⟨fallback_ne_nil now, fallback_wordChar now⟩
  · rw [if_neg h, if_pos (Or.inl rfl)]
    exact simulate_filename_good content_sample now

/-- C8: every name produced by the naming service in simulated mode — by
`generate_filename` (fallback path included) and by the heuristic generator
`_simulate_filename` itself — is non-empty, not only whitespace (no output
character is whitespace at all), and contains none of the characters
`/ \ : * ? " < > |`. -/
theorem claim_C8 (content_sample : List Char) (now : DateTime) :
    (generate_filename_simulated content_sample now ≠ []
      ∧ (∀ c ∈ generate_filename_simulated content_sample now, pyIsSpace c = false)
      ∧ (∀ c ∈ generate_filename_simulated content_sample now, forbiddenChar c = false))
    ∧ (simulate_filename content_sample now ≠ []
      ∧ (∀ c ∈ simulate_filename content_sample now, pyIsSpace c = false)
      ∧ (∀ c ∈ simulate_filename content_sample now, forbiddenChar c = false)) := by
  obtain ⟨h1, h2⟩ := generate_simulated_good content_sample now
  obtain ⟨h3, h4⟩ := simulate_filename_good content_sample now
  exact ⟨⟨h1, fun c hc => wordChar_not_space (h2 c hc),
      fun c hc => wordChar_not_forbidden (h2 c hc)⟩,
    ⟨h3, fun c hc => wordChar_not_space (h4 c hc),
      fun c hc => wordChar_not_forbidden (h4 c hc)⟩⟩

/-- Witness for C8 at a concrete content sample. -/
theorem claim_C8_witness :
    generate_filename_simulated "annual report 2024".toList sampleNow ≠ []
    ∧ (∀ c ∈ generate_filename_simulated "annual report 2024".toList sampleNow,
        pyIsSpace c = false)
    ∧ (∀ c ∈ generate_filename_simulated "annual report 2024".toList sampleNow,
        forbiddenChar c = false)
    ∧ generate_filename_simulated "annual report 2024".toList sampleNow =
        "Annual_Report".toList := by
  obtain ⟨⟨h1, h2, h3⟩, _⟩ := claim_C8 "annual report 2024".toList sampleNow
  exact ⟨h1, h2, h3, by decide⟩

/-! ## C9: heuristic tokenization -/

/-- The tokenizer as the original claim literally reads: maximal runs of 4
or more alphabetic characters, with no word-boundary restriction.  This is
what `\b[a-zA-Z]{4,}\b` would match if `\b` were ignored; it differs from
the source regex on runs of letters adjacent to digits or underscores. -/
def alphaRuns4 (l : List Char) : List (List Char) :=
  (splitRuns isAsciiAlpha l).filter (fun r => decide (4 ≤ r.length))

/-- The keyword-naming pipeline as the original claim describes it, i.e.
with the literal runs-of-letters tokenizer `alphaRuns4` in place of the
source's word-boundary-delimited tokenizer. -/
def claimedKeywordName (content_sample : List Char) : List Char :=
  joinUnderscore (((uniq5 []
    ((alphaRuns4 ((stripEnds pyIsSpace content_sample).map lowerChar)).filter
      (fun w => w ∉ common_words))).take 3).map capitalizePy)

/-- Counterexample to C9 as stated: on `"abcd1 programming"` the code's
regex `\b[a-zA-Z]{4,}\b` finds only `programming` (the run `abcd` abuts the
digit `1`, so the word-boundary assertion rejects it) and returns
`Programming`, while the claim's "runs of 4 or more alphabetic characters"
tokenization would also keep `abcd` and produce `Abcd_Programming`. -/
theorem claim_C9_counterexample :
    simulate_filename "abcd1 programming".toList sampleNow = "Programming".toList
    ∧ claimedKeywordName "abcd1 programming".toList = "Abcd_Programming".toList
    ∧ simulate_filename "abcd1 programming".toList sampleNow ≠
        claimedKeywordName "abcd1 programming".toList := by
  refine ⟨by decide, by decide, by decide⟩

/-- C9 (amended): for every content sample in which the heuristic finds at
least one keyword, `_simulate_filename` tokenizes the lower-cased content
into the maximal word-character runs (letters, digits, underscore) that
consist solely of 4 or more alphabetic characters (the `\b`-delimited
matches of `[a-zA-Z]{4,}`), drops stop words, deduplicates keeping
first-seen order up to 5 unique tokens, and returns the first 3 of these
tokens each capitalized and joined with underscores. -/
theorem claim_C9 (content_sample : List Char) (now : DateTime)
    (h : (findallAlpha4 ((stripEnds pyIsSpace content_sample).map lowerChar)).filter
        (fun w => w ∉ common_words) ≠ []) :
    simulate_filename content_sample now =
      joinUnderscore (((uniq5 []
        ((findallAlpha4 ((stripEnds pyIsSpace content_sample).map lowerChar)).filter
          (fun w => w ∉ common_words))).take 3).map capitalizePy) := by
  rw [simulate_filename_eq, if_pos (uniq5_ne_nil h)]

/-- Witness for C9 at a concrete content sample with three keywords. -/
theorem claim_C9_witness :
    (findallAlpha4 ((stripEnds pyIsSpace "python programming tutorial".toList).map
      lowerChar)).filter (fun w => w ∉ common_words) ≠ []
    ∧ simulate_filename "python programming tutorial".toList sampleNow =
        joinUnderscore (((uniq5 []
          ((findallAlpha4 ((stripEnds pyIsSpace "python programming tutorial".toList).map
            lowerChar)).filter (fun w => w ∉ common_words))).take 3).map capitalizePy)
    ∧ simulate_filename "python programming tutorial".toList sampleNow =
        "Python_Programming_Tutorial".toList :=
  ⟨by decide, claim_C9 "python programming tutorial".toList sampleNow (by decide), by decide⟩

end FileOrg
